import Mathlib

/-!
Verification of the keyed-list reconciliation and virtual-windowing engine
(`src/views/list.rs`, `src/views/virtual_list.rs`).

Keys are modelled as natural numbers; an insertion-ordered key set
(`FxIndexSet`) is a duplicate-free `List Nat`, whose iteration order is the
list order and whose index lookup is `List.indexOf`.  Child slots
(`Vec<Option<(V, ScopeDisposer)>>`) are `List (Option V)`; the view stored in
a slot is the marker value the child was constructed from.  A Rust panic
(out-of-bounds index, `unwrap` on `None`) is modelled by returning `none`
from an `Option`-valued function.  `usize` arithmetic that can wrap
(`wrapping_add` / `wrapping_sub` on `normalized_idx`) is `Nat` arithmetic
modulo `2 ^ 64`.
-/

namespace Floem

/-- Modulus of `usize` arithmetic (64-bit platform). -/
def U64 : Nat := 2 ^ 64

/-- Largest `usize` value. -/
def USIZE_MAX : Nat := U64 - 1

/-- Model of `usize::wrapping_add(1)`. -/
def wrapAdd (n : Nat) : Nat := (n + 1) % U64

/-- Model of `usize::wrapping_sub(1)`. -/
def wrapSub (n : Nat) : Nat := (n + (U64 - 1)) % U64

/-- Edit script, from `struct Diff<V>` in `list.rs`.
`removed` holds the `at` fields of the `DiffOpRemove` entries, `moved` holds
the `(from, to)` fields of the `DiffOpMove` entries, and `added` holds the
`(at, view)` fields of the `DiffOpAdd<V>` entries. -/
structure Diff (V : Type) where
  removed : List Nat
  moved : List (Nat × Nat)
  added : List (Nat × Option V)
  clear : Bool
deriving DecidableEq, Repr

/-- The `Diff::default()` value. -/
def Diff.empty {V : Type} : Diff V :=
  { removed := [], moved := [], added := [], clear := false }

/-- The loop state of the moved-items scan in `diff`: the `normalized_idx`
cursor, plus the pending head and the remaining tail of the `added` and
`removed` index iterators. -/
structure ScanSt where
  normalized : Nat
  addedPending : Option Nat
  addedRest : List Nat
  removedPending : Option Nat
  removedRest : List Nat

/-- First branch of the scan loop body: if the pending added index equals
`idx` and a next added index exists, advance to it and decrement
`normalized_idx` (wrapping). -/
def stepAdded (st : ScanSt) (idx : Nat) : ScanSt :=
  match st.addedPending with
  | some a =>
    if a = idx then
      match st.addedRest with
      | x :: xs =>
        { st with addedPending := some x, addedRest := xs,
                  normalized := wrapSub st.normalized }
      | [] => st
    else st
  | none => st

/-- Second branch of the scan loop body: if the pending removed index equals
`idx`, increment `normalized_idx` (wrapping) and advance to the next removed
index when one exists. -/
def stepRemoved (st : ScanSt) (idx : Nat) : ScanSt :=
  match st.removedPending with
  | some r =>
    if r = idx then
      let st := { st with normalized := wrapAdd st.normalized }
      match st.removedRest with
      | x :: xs => { st with removedPending := some x, removedRest := xs }
      | [] => st
    else st
  | none => st

/-- The `for (idx, k) in to.iter().enumerate()` loop of `diff` that produces
the move commands.  At each position the two pending-index branches run,
then a move `(from_idx, idx)` is pushed when `k` occurs in `frm` and
`from_idx != normalized_idx || from_idx != idx`, and finally
`normalized_idx` is incremented (wrapping). -/
def moveScan (frm : List Nat) : Nat → ScanSt → List Nat → List (Nat × Nat)
  | _, _, [] => []
  | idx, st, k :: ks =>
    let st1 := stepAdded st idx
    let st2 := stepRemoved st1 idx
    let ps : List (Nat × Nat) :=
      if k ∈ frm then
        let fi := frm.indexOf k
        if fi ≠ st2.normalized ∨ fi ≠ idx then [(fi, idx)] else []
      else []
    ps ++ moveScan frm (idx + 1) { st2 with normalized := wrapAdd st2.normalized } ks

/-- The `removed` commands of `diff(from, to)`: the keys of `from` absent
from `to` (`from.difference(to)`, in `from` iteration order), each mapped to
its index within `from` (`from.get_full(k).unwrap().0`). -/
def removedIdxs (frm tgt : List Nat) : List Nat :=
  (frm.filter (fun k => decide (k ∉ tgt))).map (fun k => frm.indexOf k)

/-- The `added` command positions of `diff(from, to)`: the keys of `to`
absent from `from` (`to.difference(from)`, in `to` iteration order), each
mapped to its index within `to`. -/
def addedIdxs (frm tgt : List Nat) : List Nat :=
  (tgt.filter (fun k => decide (k ∉ frm))).map (fun k => tgt.indexOf k)

/-- The `moved` commands of `diff(from, to)`: the scan over `to` started
with `normalized_idx = 0` and the added/removed index iterators positioned
on their first elements. -/
def moveCmds (frm tgt : List Nat) : List (Nat × Nat) :=
  moveScan frm 0
    { normalized := 0
      addedPending := (addedIdxs frm tgt).head?
      addedRest := (addedIdxs frm tgt).tail
      removedPending := (removedIdxs frm tgt).head?
      removedRest := (removedIdxs frm tgt).tail } tgt

/-- The edit script assembled by the main path of `diff(from, to)`, before
the final `clear` post-pass (`added` entries carry `view: None`). -/
def diffRaw {V : Type} (frm tgt : List Nat) : Diff V :=
  { removed := removedIdxs frm tgt
    moved := moveCmds frm tgt
    added := (addedIdxs frm tgt).map (fun i => (i, none))
    clear := false }

/-- The pure diff function `diff(from, to)` of `list.rs`:
empty/empty returns the default script; empty `to` returns the `clear` fast
path; otherwise the script is `diffRaw`, with the final post-pass setting
`clear` when every key of `from` was removed and no moves were produced. -/
def diff {V : Type} (frm tgt : List Nat) : Diff V :=
  if frm.isEmpty ∧ tgt.isEmpty then Diff.empty
  else if tgt.isEmpty then { Diff.empty with clear := true }
  else if ¬ frm.isEmpty ∧ ¬ tgt.isEmpty ∧
      (removedIdxs frm tgt).length = frm.length ∧ (moveCmds frm tgt).isEmpty
  then { diffRaw frm tgt with clear := true }
  else diffRaw frm tgt

/-- One call of `remove_index(app_state, children, index)`: indexing
`children[index]` out of bounds panics (`none`); otherwise the slot is
taken (set to `none`) whether or not it was occupied — an already empty
slot makes the rest of the body a no-op via `?`. -/
def remove_index {V : Type} (children : List (Option V)) (index : Nat) :
    Option (List (Option V)) :=
  if index < children.length then some (children.set index none) else none

/-- The `for DiffOpRemove { at } in diff.removed` loop of `apply_diff`. -/
def removeLoop {V : Type} : List Nat → List (Option V) → Option (List (Option V))
  | [], c => some c
  | i :: rest, c => (remove_index c i).bind (removeLoop rest)

/-- The `for DiffOpMove { from, to } in diff.moved` loop of `apply_diff`:
each move takes `children[from]` (panicking when the index is out of bounds
or, through `unwrap`, when the slot is empty) and stages `(to, item)` in
`items_to_move`. -/
def moveLoop {V : Type} :
    List (Nat × Nat) → List (Option V) → List (Nat × V) →
    Option (List (Option V) × List (Nat × V))
  | [], c, staged => some (c, staged)
  | (fr, t) :: rest, c, staged =>
    match c.get? fr with
    | none => none
    | some none => none
    | some (some v) => moveLoop rest (c.set fr none) (staged ++ [(t, v)])

/-- The `for DiffOpAdd { at, view } in diff.added` loop of `apply_diff`:
`children[at] = view.map(construct)`, panicking when `at` is out of bounds.
The constructed child view is the carried item value itself. -/
def addLoop {V : Type} : List (Nat × Option V) → List (Option V) → Option (List (Option V))
  | [], c => some c
  | (a, v) :: rest, c => if a < c.length then addLoop rest (c.set a v) else none

/-- The `for (to, each_item) in items_to_move` commit loop of `apply_diff`. -/
def commitLoop {V : Type} : List (Nat × V) → List (Option V) → Option (List (Option V))
  | [], c => some c
  | (t, v) :: rest, c => if t < c.length then commitLoop rest (c.set t (some v)) else none

/-- The clear branch of `apply_diff`: `remove_index` on every index
`0..children.len()`, always in bounds, leaving every slot empty. -/
def clearAll {V : Type} (c : List (Option V)) : List (Option V) :=
  (List.range c.length).foldl (fun c i => c.set i none) c

/-- The applier `apply_diff(cx, app_state, diff, children, view_fn)`:
resize (only when `added.len() >= removed.len()`, by
`checked_sub`), then clear (which also empties `removed`), removals, move
extraction, adds, move commits, and final compaction
(`children.retain(|c| c.is_some())`).  Returns `none` when any step
panics. -/
def apply_diff {V : Type} (d : Diff V) (children : List (Option V)) :
    Option (List (Option V)) :=
  let children :=
    if d.removed.length ≤ d.added.length then
      children ++ List.replicate (d.added.length - d.removed.length) (none : Option V)
    else children
  let cleared := if d.clear then (clearAll children, ([] : List Nat)) else (children, d.removed)
  (removeLoop cleared.2 cleared.1).bind fun c1 =>
  (moveLoop d.moved c1 []).bind fun p =>
  (addLoop d.added p.1).bind fun c3 =>
  (commitLoop p.2 c3).map fun c4 => c4.filter (fun s => s.isSome)

/-- The fill step of the list effect (`for added in &mut cmds.added`):
`added.view = Some(items[added.at].take().unwrap())`, panicking when
`added.at` is out of bounds or the item was already taken. -/
def fillAdds {V : Type} : List (Nat × Option V) → List (Option V) → Option (List (Nat × Option V))
  | [], _ => some []
  | (a, _) :: rest, items =>
    match items.get? a with
    | none => none
    | some none => none
    | some (some v) => (fillAdds rest (items.set a none)).map (fun l => (a, some v) :: l)

/-- Proof infrastructure: a fold of in-place slot writes, the common shape
of the clear/removed/moved/added/commit loops of `apply_diff`. -/
def writeAll {V : Type} (ops : List (Nat × Option V)) (c : List (Option V)) :
    List (Option V) :=
  ops.foldl (fun c p => c.set p.1 p.2) c

/-- One reconciliation cycle on marker values: run `diff`, fill the added
entries with the freshly produced items (the keys themselves serve as the
marker values), and apply the script to the slot array holding the markers
of `frm` in order. -/
def reconcile (frm tgt : List Nat) : Option (List (Option Nat)) :=
  let d : Diff Nat := diff frm tgt
  (fillAdds d.added (tgt.map some)).bind fun filled =>
  apply_diff { d with added := filled } (frm.map some)

/-! Windowing computed by `virtual_list` (`virtual_list.rs`).  Pixel values
(`f64` in the source) are modelled as rationals; `as usize` casts of the
already-integral results of `floor`/`ceil` saturate into `[0, USIZE_MAX]`. -/

/-- Saturating cast of an integral float value to `usize`. -/
def castUsize (z : ℤ) : Nat := min z.toNat USIZE_MAX

/-- Result of the fixed-extent windowing branch: the requested slice bounds
`start..stop` and the two spacer extents. -/
structure FixedWindow where
  start : Nat
  stop : Nat
  before_size : ℚ
  after_size : ℚ
deriving DecidableEq, Repr

/-- Fixed-extent branch of the windowing effect
(`VirtualListItemSize::Fixed`): `start = (min / item_size).floor() as usize`
when `item_size > 0.0`, else `0`; `stop` (`end` in the source)
`= ((max / item_size).ceil() as usize).min(total_len)` when
`item_size > 0.0`, else `usize::MAX`; `before_size = item_size * start`;
`after_size = item_size * total_len.saturating_sub(stop)`. -/
def fixedWindow (item_size : ℚ) (minV maxV : ℚ) (total_len : Nat) : FixedWindow :=
  let start := if 0 < item_size then castUsize ⌊minV / item_size⌋ else 0
  let stop :=
    if 0 < item_size then min (castUsize ⌈maxV / item_size⌉) total_len else USIZE_MAX
  { start := start
    stop := stop
    before_size := item_size * start
    after_size := item_size * ((total_len - stop : ℕ) : ℚ) }

/-- The slice `items_vector.slice(start..stop)` requested by the fixed
branch, for a source whose items are the list `xs`. -/
def sliceRange {α : Type} (xs : List α) (start stop : Nat) : List α :=
  (xs.take stop).drop start

/-- Variable-extent branch of the windowing effect
(`VirtualListItemSize::Fn`): a single scan over the whole source carrying
`main_axis`, `before_size`, `after_size` and the visible-item accumulator.
Note that `main_axis` is only advanced in the skip branch
(`main_axis < min`), exactly as in the source. -/
def varLoop {α : Type} (size_fn : α → ℚ) (minV maxV : ℚ) :
    List α → ℚ → ℚ → ℚ → List α → List α × ℚ × ℚ
  | [], _, before_size, after_size, acc => (acc.reverse, before_size, after_size)
  | x :: xs, main_axis, before_size, after_size, acc =>
    let item_size := size_fn x
    if main_axis < minV then
      varLoop size_fn minV maxV xs (main_axis + item_size) (before_size + item_size)
        after_size acc
    else if main_axis ≤ maxV then
      varLoop size_fn minV maxV xs main_axis before_size after_size (x :: acc)
    else
      varLoop size_fn minV maxV xs main_axis before_size (after_size + item_size) acc

/-- Variable-extent windowing over a whole source list, started with
`main_axis = 0`, empty extents and no visible items. -/
def varWindow {α : Type} (size_fn : α → ℚ) (minV maxV : ℚ) (xs : List α) :
    List α × ℚ × ℚ :=
  varLoop size_fn minV maxV xs 0 0 0 []

/-- Modelled from the spec (§4.4, variable extent): the running offset
accumulates every visited item's extent, items are skipped into
`before_extent` while the offset is below `min`, added to the visible set
while the offset lies within `[min, max]`, and summed into `after_extent`
once the offset exceeds `max`.  This is the windowing the specification
describes; it differs from `varLoop`, which never advances the offset
after it reaches `min`. -/
def specVarLoop {α : Type} (size_fn : α → ℚ) (minV maxV : ℚ) :
    List α → ℚ → ℚ → ℚ → List α → List α × ℚ × ℚ
  | [], _, before_size, after_size, acc => (acc.reverse, before_size, after_size)
  | x :: xs, main_axis, before_size, after_size, acc =>
    let item_size := size_fn x
    if main_axis < minV then
      specVarLoop size_fn minV maxV xs (main_axis + item_size) (before_size + item_size)
        after_size acc
    else if main_axis ≤ maxV then
      specVarLoop size_fn minV maxV xs (main_axis + item_size) before_size after_size (x :: acc)
    else
      specVarLoop size_fn minV maxV xs main_axis before_size (after_size + item_size) acc

/-- Variable-extent windowing as the specification describes it. -/
def specVarWindow {α : Type} (size_fn : α → ℚ) (minV maxV : ℚ) (xs : List α) :
    List α × ℚ × ℚ :=
  specVarLoop size_fn minV maxV xs 0 0 0 []

/-- Axis-aligned rectangle (`glazier::kurbo::Rect`), coordinates as
rationals; equality is by value, as derived for `Rect` in kurbo. -/
structure Rect where
  x0 : ℚ
  y0 : ℚ
  x1 : ℚ
  y1 : ℚ
deriving DecidableEq, Repr

/-- The `Rect::ZERO` constant. -/
def Rect.zero : Rect := ⟨0, 0, 0, 0⟩

/-- The viewport write-back gate at the head of
`VirtualList::compute_layout`: read `cx.viewport.unwrap_or_default()`;
if it differs from the stored viewport, store it and write it to the
`set_viewport` signal.  Returns the new stored viewport and the list of
signal writes performed. -/
def compute_layout_viewport (stored : Rect) (cx_viewport : Option Rect) :
    Rect × List Rect :=
  let viewport := cx_viewport.getD Rect.zero
  if stored ≠ viewport then (viewport, [viewport]) else (stored, [])

/-- Change flags returned by `View::update`: either `ChangeFlags::empty()`
or `ChangeFlags::LAYOUT`. -/
inductive ChangeFlags where
  | empty
  | layout
deriving DecidableEq, Repr

/-- State payload delivered to `List::update`: either the expected
`Diff<T>` box or a payload of any other dynamic type (failed downcast). -/
inductive ListPayload (V : Type) where
  | diffState (d : Diff V)
  | foreign

/-- The mutable state of a `List` view that `update` can touch: its
children slots. -/
structure ListView (V : Type) where
  children : List (Option V)
deriving DecidableEq, Repr

/-- Model of `List::update`: on a successful downcast, run `apply_diff` and
report `ChangeFlags::LAYOUT`; on a foreign payload, leave the state alone
and report `ChangeFlags::empty()`. -/
def ListView.update {V : Type} (s : ListView V) (payload : ListPayload V) :
    Option (ListView V × ChangeFlags) :=
  match payload with
  | .diffState d => (apply_diff d s.children).map fun c =>
      ({ children := c }, ChangeFlags.layout)
  | .foreign => some (s, ChangeFlags.empty)

/-- The `VirtualListState<T>` payload of `virtual_list.rs`. -/
structure VirtualListState (V : Type) where
  diff : Diff V
  before_size : ℚ
  after_size : ℚ

/-- State payload delivered to `VirtualList::update`: either the expected
`VirtualListState<T>` box or a payload of any other dynamic type. -/
inductive VLPayload (V : Type) where
  | state (s : VirtualListState V)
  | foreign

/-- The mutable state of a `VirtualList` view that `update` can touch:
children slots and the two stored spacer sizes. -/
structure VirtualListView (V : Type) where
  children : List (Option V)
  before_size : ℚ
  after_size : ℚ
deriving DecidableEq, Repr

/-- Model of `VirtualList::update`: on a successful downcast, store the new
spacer sizes, run `apply_diff` and report `ChangeFlags::LAYOUT`; on a
foreign payload, leave everything alone and report
`ChangeFlags::empty()`. -/
def VirtualListView.update {V : Type} (s : VirtualListView V) (payload : VLPayload V) :
    Option (VirtualListView V × ChangeFlags) :=
  match payload with
  | .state st => (apply_diff st.diff s.children).map fun c =>
      ({ children := c, before_size := st.before_size, after_size := st.after_size },
        ChangeFlags.layout)
  | .foreign => some (s, ChangeFlags.empty)



/-! Helper lemmas: `writeAll` and the `apply_diff` loops. -/

theorem writeAll_nil {V : Type} (c : List (Option V)) :
    writeAll ([] : List (Nat × Option V)) c = c := rfl

theorem writeAll_cons {V : Type} (p : Nat × Option V) (rest : List (Nat × Option V))
    (c : List (Option V)) : writeAll (p :: rest) c = writeAll rest (c.set p.1 p.2) := rfl

theorem length_writeAll {V : Type} (ops : List (Nat × Option V)) (c : List (Option V)) :
    (writeAll ops c).length = c.length := by
  induction ops generalizing c with
  | nil => rfl
  | cons p rest ih => rw [writeAll_cons, ih, List.length_set]

theorem get?_writeAll_of_not_mem {V : Type} {ops : List (Nat × Option V)}
    {c : List (Option V)} {j : Nat} (h : j ∉ ops.map Prod.fst) :
    (writeAll ops c).get? j = c.get? j := by
  induction ops generalizing c with
  | nil => rfl
  | cons p rest ih =>
    rw [List.map_cons] at h
    rw [writeAll_cons, ih (fun hm => h (List.mem_cons_of_mem _ hm)),
      List.get?_set_ne _ _ (fun he => h (by simp [he]))]

theorem get?_writeAll_of_mem {V : Type} {ops : List (Nat × Option V)}
    {c : List (Option V)} {j : Nat} {v : Option V} (hn : (ops.map Prod.fst).Nodup)
    (hm : (j, v) ∈ ops) (hj : j < c.length) :
    (writeAll ops c).get? j = some v := by
  induction ops generalizing c with
  | nil => cases hm
  | cons p rest ih =>
    rw [List.map_cons, List.nodup_cons] at hn
    rw [writeAll_cons]
    rcases List.mem_cons.mp hm with he | hm'
    · have hj1 : j ∉ rest.map Prod.fst := by
        subst he; exact hn.1
      rw [get?_writeAll_of_not_mem hj1, ← he,
        List.get?_set_eq_of_lt _ (by simpa using hj)]
    · exact ih hn.2 hm' (by simpa using hj)

theorem removeLoop_eq {V : Type} (idxs : List Nat) (c : List (Option V))
    (h : ∀ i ∈ idxs, i < c.length) :
    removeLoop idxs c = some (writeAll (idxs.map (fun i => (i, none))) c) := by
  induction idxs generalizing c with
  | nil => rfl
  | cons i rest ih =>
    have hi : i < c.length := h i (List.mem_cons_self i rest)
    rw [removeLoop, remove_index, if_pos hi, Option.some_bind,
      ih (c.set i none) (fun a ha => by rw [List.length_set]; exact h a (List.mem_cons_of_mem _ ha)),
      List.map_cons, writeAll_cons]

theorem moveLoop_eq {V : Type} (ms : List (Nat × Nat)) (c : List (Option V))
    (staged : List (Nat × V)) (val : Nat → V) (hn : (ms.map Prod.fst).Nodup)
    (h : ∀ p ∈ ms, c.get? p.1 = some (some (val p.1))) :
    moveLoop ms c staged =
      some (writeAll (ms.map (fun p => (p.1, none))) c,
        staged ++ ms.map (fun p => (p.2, val p.1))) := by
  induction ms generalizing c staged with
  | nil => simp [moveLoop, writeAll_nil]
  | cons p rest ih =>
    obtain ⟨fr, t⟩ := p
    rw [List.map_cons, List.nodup_cons] at hn
    have hfr : c.get? fr = some (some (val fr)) := h (fr, t) (List.mem_cons_self _ _)
    rw [moveLoop, hfr]
    show moveLoop rest (c.set fr none) (staged ++ [(t, val fr)]) = _
    rw [ih (c.set fr none) (staged ++ [(t, val fr)]) hn.2 ?hrest]
    · rw [List.map_cons, writeAll_cons, List.map_cons, List.append_assoc]
      rfl
    case hrest =>
      intro q hq
      have hne : fr ≠ q.1 := by
        intro he
        exact hn.1 (by rw [he]; exact List.mem_map.mpr ⟨q, hq, rfl⟩)
      rw [List.get?_set_ne _ _ hne]
      exact h q (List.mem_cons_of_mem _ hq)

theorem addLoop_eq {V : Type} (ops : List (Nat × Option V)) (c : List (Option V))
    (h : ∀ p ∈ ops, p.1 < c.length) :
    addLoop ops c = some (writeAll ops c) := by
  induction ops generalizing c with
  | nil => rfl
  | cons p rest ih =>
    obtain ⟨a, v⟩ := p
    rw [addLoop, if_pos (h (a, v) (List.mem_cons_self _ _)), writeAll_cons,
      ih (c.set a v) (fun q hq => by rw [List.length_set]; exact h q (List.mem_cons_of_mem _ hq))]

theorem commitLoop_eq {V : Type} (ops : List (Nat × V)) (c : List (Option V))
    (h : ∀ p ∈ ops, p.1 < c.length) :
    commitLoop ops c = some (writeAll (ops.map (fun p => (p.1, some p.2))) c) := by
  induction ops generalizing c with
  | nil => rfl
  | cons p rest ih =>
    obtain ⟨t, v⟩ := p
    rw [commitLoop, if_pos (h (t, v) (List.mem_cons_self _ _)), List.map_cons, writeAll_cons,
      ih (c.set t (some v)) (fun q hq => by rw [List.length_set]; exact h q (List.mem_cons_of_mem _ hq))]

theorem clearAll_eq_writeAll {V : Type} (c : List (Option V)) :
    clearAll c = writeAll ((List.range c.length).map (fun i => (i, none))) c := by
  rw [clearAll, writeAll, List.foldl_map]

theorem get?_clearAll {V : Type} (c : List (Option V)) (j : Nat) (hj : j < c.length) :
    (clearAll c).get? j = some none := by
  rw [clearAll_eq_writeAll]
  refine get?_writeAll_of_mem ?_ (List.mem_map_of_mem _ (List.mem_range.mpr hj)) hj
  rw [List.map_map,
    show (Prod.fst ∘ fun i : Nat => (i, (none : Option V))) = id from rfl, List.map_id]
  exact List.nodup_range _

theorem length_clearAll {V : Type} (c : List (Option V)) :
    (clearAll c).length = c.length := by
  rw [clearAll_eq_writeAll, length_writeAll]


/-! Helper lemmas: the move scan.  Correctness of reconciliation never
depends on the `normalized_idx` cursor: a move is pushed whenever
`from_idx != idx` (second disjunct of the push condition), and when no move
is pushed the key provably sits at its own target index. -/

theorem moveScan_mem {frm : List Nat} :
    ∀ {ks : List Nat} {idx0 : Nat} {st : ScanSt} {fr i : Nat},
      (fr, i) ∈ moveScan frm idx0 st ks →
      idx0 ≤ i ∧ ∃ k, ks.get? (i - idx0) = some k ∧ k ∈ frm ∧ fr = frm.indexOf k := by
  intro ks
  induction ks with
  | nil => intro idx0 st fr i h; cases h
  | cons k0 ks ih =>
    intro idx0 st fr i h
    rw [moveScan] at h
    dsimp only at h
    rcases List.mem_append.mp h with hp | hr
    · split_ifs at hp with h1 h2
      · rcases List.mem_singleton.mp hp with he
        have hfr : fr = frm.indexOf k0 := congrArg Prod.fst he
        have hi : i = idx0 := congrArg Prod.snd he
        subst hi
        exact ⟨le_refl _, k0, by simp, h1, hfr⟩
      · cases hp
      · cases hp
    · obtain ⟨hle, k, hget, hkm, hfr⟩ := ih hr
      refine ⟨le_trans (Nat.le_succ _) hle, k, ?_, hkm, hfr⟩
      have harith : i - idx0 = (i - (idx0 + 1)) + 1 := by omega
      rw [harith, List.get?_cons_succ]
      exact hget

theorem moveScan_snd_eq {frm : List Nat} {idx0 : Nat} {st : ScanSt} {k0 : Nat}
    {p : Nat × Nat}
    (hp : p ∈ (if k0 ∈ frm then
        (if frm.indexOf k0 ≠ (stepRemoved (stepAdded st idx0) idx0).normalized ∨
            frm.indexOf k0 ≠ idx0
         then [(frm.indexOf k0, idx0)] else [])
      else [])) : p.2 = idx0 := by
  split_ifs at hp with h1 h2
  · rw [List.mem_singleton.mp hp]
  · cases hp
  · cases hp

theorem moveScan_pairwise {frm : List Nat} :
    ∀ (ks : List Nat) (idx0 : Nat) (st : ScanSt),
      (moveScan frm idx0 st ks).Pairwise (fun p q => p.2 < q.2) := by
  intro ks
  induction ks with
  | nil => intro idx0 st; exact List.Pairwise.nil
  | cons k0 ks ih =>
    intro idx0 st
    rw [moveScan]
    dsimp only
    rw [List.pairwise_append]
    refine ⟨?_, ih _ _, ?_⟩
    · split_ifs
      · exact List.pairwise_singleton _ _
      · exact List.Pairwise.nil
      · exact List.Pairwise.nil
    · intro p hp q hq
      rw [moveScan_snd_eq hp]
      have := (moveScan_mem hq).1
      omega

theorem moveScan_push {frm : List Nat} :
    ∀ (ks : List Nat) (idx0 : Nat) (st : ScanSt) (i k : Nat),
      ks.get? i = some k → k ∈ frm → frm.indexOf k ≠ idx0 + i →
      (frm.indexOf k, idx0 + i) ∈ moveScan frm idx0 st ks := by
  intro ks
  induction ks with
  | nil => intro idx0 st i k hget; cases hget
  | cons k0 ks ih =>
    intro idx0 st i k hget hk hne
    rw [moveScan]
    dsimp only
    cases i with
    | zero =>
      have hk0 : k0 = k := by
        have := hget
        rw [List.get?_cons_zero] at this
        exact Option.some.inj this
      subst hk0
      refine List.mem_append.mpr (Or.inl ?_)
      rw [if_pos hk, if_pos (Or.inr (by simpa using hne))]
      simp
    | succ n =>
      rw [List.get?_cons_succ] at hget
      refine List.mem_append.mpr (Or.inr ?_)
      have := ih (idx0 + 1) { stepRemoved (stepAdded st idx0) idx0 with
          normalized := wrapAdd (stepRemoved (stepAdded st idx0) idx0).normalized }
        n k hget hk (by omega)
      have harith : idx0 + 1 + n = idx0 + (n + 1) := by omega
      rw [harith] at this
      exact this


/-! Helper lemmas: the removed and added command lists of `diff`. -/

theorem mem_removedIdxs {frm tgt : List Nat} (hf : frm.Nodup) {i : Nat} :
    i ∈ removedIdxs frm tgt ↔ ∃ k, frm.get? i = some k ∧ k ∉ tgt := by
  constructor
  · intro h
    obtain ⟨k, hk, rfl⟩ := List.mem_map.mp h
    obtain ⟨hkm, hkp⟩ := List.mem_filter.mp hk
    exact ⟨k, List.indexOf_get? hkm, by simpa using hkp⟩
  · rintro ⟨k, hget, hnot⟩
    have hkm : k ∈ frm := List.get?_mem hget
    have hlt : i < frm.length := (List.get?_eq_some.mp hget).choose
    have hspec := (List.get?_eq_some.mp hget).choose_spec
    refine List.mem_map.mpr ⟨k, List.mem_filter.mpr ⟨hkm, by simpa using hnot⟩, ?_⟩
    rw [← hspec]
    exact List.get_indexOf hf ⟨i, hlt⟩

theorem mem_addedIdxs {frm tgt : List Nat} (ht : tgt.Nodup) {i : Nat} :
    i ∈ addedIdxs frm tgt ↔ ∃ k, tgt.get? i = some k ∧ k ∉ frm := by
  constructor
  · intro h
    obtain ⟨k, hk, rfl⟩ := List.mem_map.mp h
    obtain ⟨hkm, hkp⟩ := List.mem_filter.mp hk
    exact ⟨k, List.indexOf_get? hkm, by simpa using hkp⟩
  · rintro ⟨k, hget, hnot⟩
    have hkm : k ∈ tgt := List.get?_mem hget
    have hlt : i < tgt.length := (List.get?_eq_some.mp hget).choose
    have hspec := (List.get?_eq_some.mp hget).choose_spec
    refine List.mem_map.mpr ⟨k, List.mem_filter.mpr ⟨hkm, by simpa using hnot⟩, ?_⟩
    rw [← hspec]
    exact List.get_indexOf ht ⟨i, hlt⟩

theorem removedIdxs_nodup {frm tgt : List Nat} (hf : frm.Nodup) :
    (removedIdxs frm tgt).Nodup := by
  refine List.Nodup.map_on ?_ (hf.filter _)
  intro x hx y hy he
  exact (List.indexOf_inj (List.mem_of_mem_filter hx) (List.mem_of_mem_filter hy)).mp he

theorem addedIdxs_nodup {frm tgt : List Nat} (ht : tgt.Nodup) :
    (addedIdxs frm tgt).Nodup := by
  refine List.Nodup.map_on ?_ (ht.filter _)
  intro x hx y hy he
  exact (List.indexOf_inj (List.mem_of_mem_filter hx) (List.mem_of_mem_filter hy)).mp he

theorem removedIdxs_lt {frm tgt : List Nat} {i : Nat} (h : i ∈ removedIdxs frm tgt) :
    i < frm.length := by
  obtain ⟨k, hk, rfl⟩ := List.mem_map.mp h
  exact List.indexOf_lt_length.mpr (List.mem_of_mem_filter hk)

theorem addedIdxs_lt {frm tgt : List Nat} {i : Nat} (h : i ∈ addedIdxs frm tgt) :
    i < tgt.length := by
  obtain ⟨k, hk, rfl⟩ := List.mem_map.mp h
  exact List.indexOf_lt_length.mpr (List.mem_of_mem_filter hk)

theorem filter_mem_length_comm {frm tgt : List Nat} (hf : frm.Nodup) (ht : tgt.Nodup) :
    (frm.filter (fun k => decide (k ∈ tgt))).length =
      (tgt.filter (fun k => decide (k ∈ frm))).length := by
  have h1 : (frm.filter (fun k => decide (k ∈ tgt))).toFinset = frm.toFinset ∩ tgt.toFinset := by
    ext a
    simp [List.mem_filter]
  have h2 : (tgt.filter (fun k => decide (k ∈ frm))).toFinset = tgt.toFinset ∩ frm.toFinset := by
    ext a
    simp [List.mem_filter]
  calc (frm.filter (fun k => decide (k ∈ tgt))).length
      = (frm.filter (fun k => decide (k ∈ tgt))).toFinset.card :=
        (List.toFinset_card_of_nodup (hf.filter _)).symm
    _ = (frm.toFinset ∩ tgt.toFinset).card := by rw [h1]
    _ = (tgt.toFinset ∩ frm.toFinset).card := by rw [Finset.inter_comm]
    _ = (tgt.filter (fun k => decide (k ∈ frm))).toFinset.card := by rw [h2]
    _ = (tgt.filter (fun k => decide (k ∈ frm))).length :=
        List.toFinset_card_of_nodup (ht.filter _)

theorem length_count_identity {frm tgt : List Nat} (hf : frm.Nodup) (ht : tgt.Nodup) :
    frm.length + (addedIdxs frm tgt).length = tgt.length + (removedIdxs frm tgt).length := by
  rw [removedIdxs, addedIdxs, List.length_map, List.length_map]
  have hpf := List.length_eq_length_filter_add (l := frm) (fun k => decide (k ∈ tgt))
  have hpt := List.length_eq_length_filter_add (l := tgt) (fun k => decide (k ∈ frm))
  have hff : (frm.filter (fun k => !decide (k ∈ tgt))) = frm.filter (fun k => decide (k ∉ tgt)) := by
    apply List.filter_congr
    intro a _
    simp
  have hft : (tgt.filter (fun k => !decide (k ∈ frm))) = tgt.filter (fun k => decide (k ∉ frm)) := by
    apply List.filter_congr
    intro a _
    simp
  rw [hff] at hpf
  rw [hft] at hpt
  have hcomm := filter_mem_length_comm hf ht
  omega


/-! Helper lemmas: `moveCmds` corollaries and the branch structure of
`diff`. -/

theorem moveCmds_mem {frm tgt : List Nat} {fr i : Nat} (h : (fr, i) ∈ moveCmds frm tgt) :
    ∃ k, tgt.get? i = some k ∧ k ∈ frm ∧ fr = frm.indexOf k := by
  have hm := moveScan_mem h
  simpa using hm.2

theorem moveCmds_pairwise (frm tgt : List Nat) :
    (moveCmds frm tgt).Pairwise (fun p q => p.2 < q.2) :=
  moveScan_pairwise tgt 0 _

theorem moveCmds_push {frm tgt : List Nat} {i k : Nat}
    (hget : tgt.get? i = some k) (hk : k ∈ frm) (hne : frm.indexOf k ≠ i) :
    (frm.indexOf k, i) ∈ moveCmds frm tgt := by
  rw [moveCmds]
  have := moveScan_push tgt 0
    { normalized := 0
      addedPending := (addedIdxs frm tgt).head?
      addedRest := (addedIdxs frm tgt).tail
      removedPending := (removedIdxs frm tgt).head?
      removedRest := (removedIdxs frm tgt).tail } i k hget hk (by simpa using hne)
  simpa using this

theorem diff_moved_eq (V : Type) (frm tgt : List Nat) (h : tgt ≠ []) :
    (diff (V := V) frm tgt).moved = moveCmds frm tgt := by
  have htE : ¬ (tgt.isEmpty = true) := by simpa [List.isEmpty_iff] using h
  rw [diff, if_neg (fun hc => htE hc.2), if_neg htE]
  split_ifs <;> rfl

theorem diff_removed_eq (V : Type) (frm tgt : List Nat) (h : tgt ≠ []) :
    (diff (V := V) frm tgt).removed = removedIdxs frm tgt := by
  have htE : ¬ (tgt.isEmpty = true) := by simpa [List.isEmpty_iff] using h
  rw [diff, if_neg (fun hc => htE hc.2), if_neg htE]
  split_ifs <;> rfl

theorem diff_added_eq (V : Type) (frm tgt : List Nat) (h : tgt ≠ []) :
    (diff (V := V) frm tgt).added = (addedIdxs frm tgt).map (fun i => (i, none)) := by
  have htE : ¬ (tgt.isEmpty = true) := by simpa [List.isEmpty_iff] using h
  rw [diff, if_neg (fun hc => htE hc.2), if_neg htE]
  split_ifs <;> rfl

/-- C2 counterexample: `diff([A], [B])` (keys `0` and `1`) takes the final
`clear` post-pass, which sets `clear` without emptying `removed`; the
returned script has `clear = true` and a non-empty `removed` list. -/
theorem C2_counterexample :
    (diff (V := Nat) [0] [1]).clear = true ∧ (diff (V := Nat) [0] [1]).removed ≠ [] := by
  constructor <;> decide

/-- C2 (amended): whenever the script returned by `diff(from, to)` has
`clear = true`, its `removed` list is either empty (the empty-`to` fast
path) or contains one entry per key of `from` (the post-pass, whose
condition is exactly `removed.len() == from.len()`); `apply_diff` discards
`removed` whenever `clear` is set, before applying any removal. -/
theorem C2_clear_subsumes (V : Type) (frm tgt : List Nat)
    (h : (diff (V := V) frm tgt).clear = true) :
    (diff (V := V) frm tgt).removed = [] ∨
      (diff (V := V) frm tgt).removed.length = frm.length := by
  rw [diff] at h ⊢
  split_ifs at h ⊢ with h1 h2 h3
  · simp [Diff.empty] at h
  · left
    rfl
  · right
    simpa [diffRaw] using h3.2.2.1
  · simp [diffRaw] at h

/-- C2 witness: the amended invariant at the concrete counterexample
input. -/
theorem C2_witness :
    (diff (V := Nat) [0] [1]).clear = true ∧
    ((diff (V := Nat) [0] [1]).removed = [] ∨
      (diff (V := Nat) [0] [1]).removed.length = ([0] : List Nat).length) :=
  ⟨by decide, C2_clear_subsumes Nat [0] [1] (by decide)⟩

/-- C4 counterexample: `diff([A,B,C], [B,C,A])` (keys `0,1,2`) does not
produce exactly one move — it produces three. -/
theorem C4_counterexample :
    ¬ ((diff (V := Nat) [0, 1, 2] [1, 2, 0]).moved.length = 1) := by decide

/-- C4 (amended): a move is emitted for every surviving key whose index
changed, not only for keys whose relative order changed:
`diff([A,B,C], [B,C,A])` produces exactly the three moves
`B: 1→0`, `C: 2→1`, `A: 0→2` with empty `added`/`removed`; in general a
surviving key for which no move is emitted sits exactly at its original
index (`from`-index equal to `to`-index). -/
theorem C4_reorder_moves :
    diff (V := Nat) [0, 1, 2] [1, 2, 0] =
      { removed := [], moved := [(1, 0), (2, 1), (0, 2)], added := [], clear := false } ∧
    ∀ (frm tgt : List Nat) (i k : Nat), tgt.get? i = some k → k ∈ frm →
      (frm.indexOf k, i) ∉ (diff (V := Nat) frm tgt).moved → frm.indexOf k = i := by
  constructor
  · decide
  · intro frm tgt i k hget hk hnot
    by_contra hne
    apply hnot
    have htne : tgt ≠ [] := by rintro rfl; cases hget
    rw [diff_moved_eq Nat frm tgt htne]
    exact moveCmds_push hget hk hne

/-- C4 witness: the no-move case at a concrete input — in `diff([A],[A])`
no move is emitted and the key indeed sits at its original index. -/
theorem C4_witness :
    ([5] : List Nat).get? 0 = some 5 ∧ 5 ∈ ([5] : List Nat) ∧
    (List.indexOf 5 [5], 0) ∉ (diff (V := Nat) [5] [5]).moved ∧
    List.indexOf 5 ([5] : List Nat) = 0 :=
  ⟨by decide, by decide, by decide,
    C4_reorder_moves.2 [5] [5] 0 5 (by decide) (by decide) (by decide)⟩

/-- C5 counterexample: `diff([A,B,C], [A,C])` (keys `0,1,2`) does not have
an empty `moved` list. -/
theorem C5_counterexample : (diff (V := Nat) [0, 1, 2] [0, 2]).moved ≠ [] := by decide

/-- C5 (amended): `diff([A,B,C], [A,C])` produces exactly one removal
(`B` at `from`-index 1), exactly one (spurious but harmless) move
(`C: 2→1`), and an empty `added` list. -/
theorem C5_mixed :
    diff (V := Nat) [0, 1, 2] [0, 2] =
      { removed := [1], moved := [(2, 1)], added := [], clear := false } := by
  decide


/-- C6 (amended): a removal (`remove_index`) that targets an already empty
slot is a benign no-op — it leaves the array exactly as if the removal were
absent; but a move whose `from` slot is empty is not tolerated: `apply_diff`
panics on the `unwrap` of the taken slot. -/
theorem C6_empty_slot :
    (∀ (c : List (Option Nat)) (a : Nat), a < c.length → c.get? a = some none →
      apply_diff { removed := [a], moved := [], added := [], clear := false } c =
        apply_diff { removed := [], moved := [], added := [], clear := false } c) ∧
    (∀ (c : List (Option Nat)) (fr t : Nat), c.get? fr = some none →
      apply_diff { removed := [], moved := [(fr, t)], added := [], clear := false } c =
        none) := by
  constructor
  · intro c a ha hnone
    have hset : c.set a none = c := by
      apply List.ext_get?
      intro j
      by_cases hj : a = j
      · subst hj
        rw [List.get?_set_eq_of_lt _ ha, hnone]
      · rw [List.get?_set_ne _ _ hj]
    simp [apply_diff, removeLoop, remove_index, moveLoop, addLoop, commitLoop, ha, hset]
  · intro c fr t hnone
    have hg := hnone
    rw [List.get?_eq_getElem?] at hg
    simp [apply_diff, removeLoop, moveLoop, hg]

/-- C6 witness: the amended behaviour at the concrete slot array `[None]` —
the removal is a no-op, the move panics. -/
theorem C6_witness :
    (0 < ([none] : List (Option Nat)).length ∧
      ([none] : List (Option Nat)).get? 0 = some none) ∧
    apply_diff { removed := [0], moved := [], added := [], clear := false }
        ([none] : List (Option Nat)) =
      apply_diff { removed := [], moved := [], added := [], clear := false }
        ([none] : List (Option Nat)) ∧
    apply_diff { removed := [], moved := [(0, 0)], added := [], clear := false }
        ([none] : List (Option Nat)) = none :=
  ⟨⟨by decide, by decide⟩, C6_empty_slot.1 [none] 0 (by decide) (by decide),
    C6_empty_slot.2 [none] 0 0 (by decide)⟩

/-- C6 counterexample: the claim as stated is false for moves — a move
targeting the empty slot of `[None]` panics (`none` in the model) instead
of leaving the array unchanged. -/
theorem C6_counterexample :
    apply_diff { removed := [], moved := [(0, 0)], added := [], clear := false }
      ([none] : List (Option Nat)) = none := by
  decide

/-- C9: after each layout pass, the viewport signal is written if and only
if the rectangle read back from the layout engine
(`cx.viewport.unwrap_or_default()`) differs by value from the stored
viewport; when they are equal no write occurs, and the stored viewport
always ends up equal to the rectangle that was read. -/
theorem C9_viewport_gate (stored : Rect) (o : Option Rect) :
    (compute_layout_viewport stored o).2 =
      (if o.getD Rect.zero = stored then [] else [o.getD Rect.zero]) ∧
    (compute_layout_viewport stored o).1 = o.getD Rect.zero := by
  unfold compute_layout_viewport
  by_cases he : stored = o.getD Rect.zero
  · rw [if_neg (not_not_intro he), if_pos he.symm]
    exact ⟨rfl, he⟩
  · rw [if_pos he, if_neg (fun h2 => he h2.symm)]
    exact ⟨rfl, rfl⟩

/-- C10: on a state payload whose dynamic type is not the expected
diff/state type, both `List::update` and `VirtualList::update` return the
empty change-flag set and leave the children array (and, for the virtual
list, the stored spacer sizes) unchanged. -/
theorem C10_foreign_payload :
    (∀ (s : ListView Nat),
      ListView.update s ListPayload.foreign = some (s, ChangeFlags.empty)) ∧
    (∀ (s : VirtualListView Nat),
      VirtualListView.update s VLPayload.foreign = some (s, ChangeFlags.empty)) :=
  ⟨fun _ => rfl, fun _ => rfl⟩

/-- C7: for a fixed item extent `h > 0` and `total_len = n`, the fixed
windowing branch computes `start = ⌊min / h⌋`, `stop = min(⌈max / h⌉, n)`,
`before_size = h * start` and `after_size = h * (n - stop)` (the casts to
`usize` do not saturate below `USIZE_MAX`). -/
theorem C7_fixed_window (h minV maxV : ℚ) (n : Nat) (hh : 0 < h) (hmin : 0 ≤ minV)
    (hmax : 0 ≤ maxV) (h1 : Nat.floor (minV / h) ≤ USIZE_MAX)
    (h2 : Nat.ceil (maxV / h) ≤ USIZE_MAX) :
    fixedWindow h minV maxV n =
      { start := Nat.floor (minV / h)
        stop := min (Nat.ceil (maxV / h)) n
        before_size := h * (Nat.floor (minV / h) : ℚ)
        after_size := h * ((n - min (Nat.ceil (maxV / h)) n : ℕ) : ℚ) } := by
  have hstart : castUsize ⌊minV / h⌋ = Nat.floor (minV / h) := by
    rw [castUsize, Int.floor_toNat]
    exact min_eq_left h1
  have hstop : castUsize ⌈maxV / h⌉ = Nat.ceil (maxV / h) := by
    rw [castUsize, Int.ceil_toNat]
    exact min_eq_left h2
  unfold fixedWindow
  rw [if_pos hh, if_pos hh, hstart, hstop]

/-- C7 witness: the concrete scenario `n = 100`, `h = 20`,
`viewport = [45, 105)`: visible index range `[2, 6)`, `before = 40`,
`after = 1880`, and the requested slice of the identity source is
`[2, 3, 4, 5]`. -/
theorem C7_witness :
    ((0:ℚ) < 20 ∧ (0:ℚ) ≤ 45 ∧ (0:ℚ) ≤ 105) ∧
    fixedWindow 20 45 105 100 =
      { start := 2, stop := 6, before_size := 40, after_size := 1880 } ∧
    sliceRange (List.range 100) 2 6 = [2, 3, 4, 5] := by
  have hf : (⌊(45:ℚ)/20⌋₊ : Nat) = 2 := by
    rw [Nat.floor_eq_iff (by norm_num)]
    norm_num
  have hc : (⌈(105:ℚ)/20⌉₊ : Nat) = 6 := by
    rw [Nat.ceil_eq_iff (by norm_num)]
    norm_num
  refine ⟨⟨by norm_num, by norm_num, by norm_num⟩, ?_, by decide⟩
  rw [C7_fixed_window 20 45 105 100 (by norm_num) (by norm_num) (by norm_num)
    (by rw [hf]; decide) (by rw [hc]; decide), hf, hc]
  norm_num

/-- C8 counterexample: for `h = 0` and `n = 5` the fixed branch requests
the slice end `usize::MAX`, not `n`. -/
theorem C8_counterexample : (fixedWindow 0 0 100 5).stop ≠ 5 := by decide

/-- C8 (amended): in fixed-extent windowing with `h <= 0` the computation
treats `start = 0` and `stop = usize::MAX` (not `n`): the slice requested
from the source is `[0, usize::MAX)`, with `before_size = 0` and
`after_size = 0` (the latter through the saturating subtraction
`n - usize::MAX = 0`). -/
theorem C8_degenerate (h minV maxV : ℚ) (n : Nat) (hh : h ≤ 0) (hn : n ≤ USIZE_MAX) :
    fixedWindow h minV maxV n =
      { start := 0, stop := USIZE_MAX, before_size := 0, after_size := 0 } := by
  have hlt : ¬ (0 < h) := not_lt.mpr hh
  simp only [fixedWindow, if_neg hlt]
  rw [Nat.sub_eq_zero_of_le hn]
  simp

/-- C8 witness: the amended behaviour at `h = 0`, `n = 5`. -/
theorem C8_witness :
    ((0:ℚ) ≤ 0 ∧ (5:Nat) ≤ USIZE_MAX) ∧
    fixedWindow 0 0 100 5 =
      { start := 0, stop := USIZE_MAX, before_size := 0, after_size := 0 } :=
  ⟨⟨le_refl 0, by decide⟩, C8_degenerate 0 0 100 5 (le_refl 0) (by decide)⟩

theorem varLoop_nil {α : Type} {f : α → ℚ} {minV maxV m b a : ℚ} {acc : List α} :
    varLoop f minV maxV [] m b a acc = (acc.reverse, b, a) := rfl

theorem varLoop_skip {α : Type} {f : α → ℚ} {minV maxV : ℚ} {x : α} {xs : List α}
    {m b a : ℚ} {acc : List α} (h : m < minV) :
    varLoop f minV maxV (x :: xs) m b a acc =
      varLoop f minV maxV xs (m + f x) (b + f x) a acc := by
  rw [varLoop]
  rw [if_pos h]

theorem varLoop_vis {α : Type} {f : α → ℚ} {minV maxV : ℚ} {x : α} {xs : List α}
    {m b a : ℚ} {acc : List α} (h1 : ¬ m < minV) (h2 : m ≤ maxV) :
    varLoop f minV maxV (x :: xs) m b a acc =
      varLoop f minV maxV xs m b a (x :: acc) := by
  rw [varLoop]
  rw [if_neg h1, if_pos h2]

theorem varLoop_after {α : Type} {f : α → ℚ} {minV maxV : ℚ} {x : α} {xs : List α}
    {m b a : ℚ} {acc : List α} (h1 : ¬ m < minV) (h2 : ¬ m ≤ maxV) :
    varLoop f minV maxV (x :: xs) m b a acc =
      varLoop f minV maxV xs m b (a + f x) acc := by
  rw [varLoop]
  rw [if_neg h1, if_neg h2]

theorem specVarLoop_nil {α : Type} {f : α → ℚ} {minV maxV m b a : ℚ} {acc : List α} :
    specVarLoop f minV maxV [] m b a acc = (acc.reverse, b, a) := rfl

theorem specVarLoop_skip {α : Type} {f : α → ℚ} {minV maxV : ℚ} {x : α} {xs : List α}
    {m b a : ℚ} {acc : List α} (h : m < minV) :
    specVarLoop f minV maxV (x :: xs) m b a acc =
      specVarLoop f minV maxV xs (m + f x) (b + f x) a acc := by
  rw [specVarLoop]
  rw [if_pos h]

theorem specVarLoop_vis {α : Type} {f : α → ℚ} {minV maxV : ℚ} {x : α} {xs : List α}
    {m b a : ℚ} {acc : List α} (h1 : ¬ m < minV) (h2 : m ≤ maxV) :
    specVarLoop f minV maxV (x :: xs) m b a acc =
      specVarLoop f minV maxV xs (m + f x) b a (x :: acc) := by
  rw [specVarLoop]
  rw [if_neg h1, if_pos h2]

theorem specVarLoop_after {α : Type} {f : α → ℚ} {minV maxV : ℚ} {x : α} {xs : List α}
    {m b a : ℚ} {acc : List α} (h1 : ¬ m < minV) (h2 : ¬ m ≤ maxV) :
    specVarLoop f minV maxV (x :: xs) m b a acc =
      specVarLoop f minV maxV xs m b (a + f x) acc := by
  rw [specVarLoop]
  rw [if_neg h1, if_neg h2]

/-- C3: divergence of the variable-extent loop from the specified
windowing at the failing input "ten items of extent 20, viewport
[45, 105]".  The source loop freezes `main_axis` once it reaches `min`, so
it materializes items `3..9` and accumulates nothing into `after_size`;
the specified behaviour (running offset advancing on every item) yields
visible items `3, 4, 5` and `after_extent = 80`. -/
theorem C3_var_window_bug :
    varWindow (fun _ => (20:ℚ)) 45 105 (List.range 10) =
      ([3, 4, 5, 6, 7, 8, 9], 60, 0) ∧
    specVarWindow (fun _ => (20:ℚ)) 45 105 (List.range 10) =
      ([3, 4, 5], 60, 80) := by
  constructor
  · show varLoop _ 45 105 (List.range 10) 0 0 0 [] = _
    rw [show List.range 10 = [0, 1, 2, 3, 4, 5, 6, 7, 8, 9] from rfl]
    rw [varLoop_skip (by norm_num), varLoop_skip (by norm_num),
      varLoop_skip (by norm_num), varLoop_vis (by norm_num) (by norm_num),
      varLoop_vis (by norm_num) (by norm_num), varLoop_vis (by norm_num) (by norm_num),
      varLoop_vis (by norm_num) (by norm_num), varLoop_vis (by norm_num) (by norm_num),
      varLoop_vis (by norm_num) (by norm_num), varLoop_vis (by norm_num) (by norm_num),
      varLoop_nil]
    norm_num
  · show specVarLoop _ 45 105 (List.range 10) 0 0 0 [] = _
    rw [show List.range 10 = [0, 1, 2, 3, 4, 5, 6, 7, 8, 9] from rfl]
    rw [specVarLoop_skip (by norm_num), specVarLoop_skip (by norm_num),
      specVarLoop_skip (by norm_num), specVarLoop_vis (by norm_num) (by norm_num),
      specVarLoop_vis (by norm_num) (by norm_num),
      specVarLoop_vis (by norm_num) (by norm_num),
      specVarLoop_after (by norm_num) (by norm_num),
      specVarLoop_after (by norm_num) (by norm_num),
      specVarLoop_after (by norm_num) (by norm_num),
      specVarLoop_after (by norm_num) (by norm_num), specVarLoop_nil]
    norm_num


/-! Helper lemmas towards the full reconciliation round-trip (C1). -/

theorem nodup_get?_inj {l : List Nat} (h : l.Nodup) {i j k : Nat}
    (hi : l.get? i = some k) (hj : l.get? j = some k) : i = j := by
  have hi1 : i < l.length := (List.get?_eq_some.mp hi).choose
  have hi2 := (List.get?_eq_some.mp hi).choose_spec
  have hj1 : j < l.length := (List.get?_eq_some.mp hj).choose
  have hj2 := (List.get?_eq_some.mp hj).choose_spec
  have h1 : l.indexOf k = i := by
    rw [← hi2]
    exact List.get_indexOf h ⟨i, hi1⟩
  have h2 : l.indexOf k = j := by
    rw [← hj2]
    exact List.get_indexOf h ⟨j, hj1⟩
  omega

theorem moveCmds_fst_lt {frm tgt : List Nat} {p : Nat × Nat} (h : p ∈ moveCmds frm tgt) :
    p.1 < frm.length := by
  obtain ⟨k, _, hk, hfr⟩ := moveCmds_mem (show (p.1, p.2) ∈ moveCmds frm tgt from h)
  rw [hfr]
  exact List.indexOf_lt_length.mpr hk

theorem moveCmds_snd_lt {frm tgt : List Nat} {p : Nat × Nat} (h : p ∈ moveCmds frm tgt) :
    p.2 < tgt.length := by
  obtain ⟨k, hget, _, _⟩ := moveCmds_mem (show (p.1, p.2) ∈ moveCmds frm tgt from h)
  exact (List.get?_eq_some.mp hget).choose

theorem moveCmds_snds_nodup (frm tgt : List Nat) :
    ((moveCmds frm tgt).map Prod.snd).Nodup := by
  have hp := moveCmds_pairwise frm tgt
  rw [List.Nodup, List.pairwise_map]
  exact hp.imp (fun hlt => Nat.ne_of_lt hlt)

theorem moveCmds_nodup (frm tgt : List Nat) : (moveCmds frm tgt).Nodup :=
  (moveCmds_pairwise frm tgt).imp
    (fun hlt he => absurd (congrArg Prod.snd he) (Nat.ne_of_lt hlt))

theorem moveCmds_fsts_nodup {frm tgt : List Nat} (ht : tgt.Nodup) :
    ((moveCmds frm tgt).map Prod.fst).Nodup := by
  refine List.Nodup.map_on ?_ (moveCmds_nodup frm tgt)
  intro p hp q hq he
  obtain ⟨kp, hgp, hkp, hfp⟩ := moveCmds_mem (show (p.1, p.2) ∈ moveCmds frm tgt from hp)
  obtain ⟨kq, hgq, hkq, hfq⟩ := moveCmds_mem (show (q.1, q.2) ∈ moveCmds frm tgt from hq)
  have hkk : kp = kq := by
    have : frm.indexOf kp = frm.indexOf kq := by rw [← hfp, ← hfq, he]
    exact (List.indexOf_inj hkp hkq).mp this
  have hsnd : p.2 = q.2 := nodup_get?_inj ht hgp (hkk ▸ hgq)
  have hfst : p.1 = q.1 := he
  exact Prod.ext hfst hsnd

theorem fillAdds_eq {V : Type} :
    ∀ (ops : List (Nat × Option V)) (items : List (Option V)),
      (ops.map Prod.fst).Nodup →
      (∀ p ∈ ops, ∃ v, items.get? p.1 = some (some v)) →
      fillAdds ops items =
        some (ops.map (fun p => (p.1, (items.get? p.1).getD none))) := by
  intro ops
  induction ops with
  | nil => intro items _ _; rfl
  | cons p rest ih =>
    intro items hn hv
    obtain ⟨a, w⟩ := p
    obtain ⟨v, hv0⟩ := hv (a, w) (List.mem_cons_self _ _)
    rw [List.map_cons, List.nodup_cons] at hn
    rw [fillAdds, hv0]
    show (fillAdds rest (items.set a none)).map (fun l => (a, some v) :: l) = _
    have hrest : ∀ q ∈ rest, ∃ v', (items.set a none).get? q.1 = some (some v') := by
      intro q hq
      obtain ⟨v', hv'⟩ := hv q (List.mem_cons_of_mem _ hq)
      have hne : a ≠ q.1 := by
        intro he
        exact hn.1 (by rw [he]; exact List.mem_map.mpr ⟨q, hq, rfl⟩)
      exact ⟨v', by rw [List.get?_set_ne _ _ hne]; exact hv'⟩
    rw [ih (items.set a none) hn.2 hrest]
    rw [Option.map_some']
    congr 1
    rw [List.map_cons]
    congr 1
    · rw [hv0]
      rfl
    · refine List.map_congr_left ?_
      intro q hq
      have hne : a ≠ q.1 := by
        intro he
        exact hn.1 (by rw [he]; exact List.mem_map.mpr ⟨q, hq, rfl⟩)
      rw [List.get?_set_ne _ _ hne]

theorem filter_isSome_final {V : Type} (c : List (Option V)) (tgt : List V) (L : Nat)
    (hL : c.length = L) (htL : tgt.length ≤ L)
    (h1 : ∀ i k, tgt.get? i = some k → c.get? i = some (some k))
    (h2 : ∀ i, tgt.length ≤ i → i < L → c.get? i = some none) :
    c.filter (fun s => s.isSome) = tgt.map some := by
  have hc : c = tgt.map some ++ List.replicate (L - tgt.length) none := by
    apply List.ext_get?
    intro j
    by_cases hj : j < tgt.length
    · have hk : tgt.get? j = some (tgt.get ⟨j, hj⟩) := List.get?_eq_get hj
      rw [h1 j _ hk, List.get?_append (by simpa using hj), List.get?_map, hk]
      rfl
    · by_cases hjL : j < L
      · rw [h2 j (le_of_not_lt hj) hjL,
          List.get?_append_right (by simpa using hj)]
        have hlt : j - (tgt.map some).length < L - tgt.length := by
          simp only [List.length_map]
          omega
        rw [List.get?_eq_get (by simpa using hlt), List.get_replicate]
      · rw [List.get?_eq_none.mpr (by omega),
          List.get?_eq_none.mpr (by simp; omega)]
  rw [hc, List.filter_append]
  have hall : (tgt.map some).filter (fun s => s.isSome) = tgt.map some := by
    apply List.filter_eq_self.mpr
    intro a ha
    obtain ⟨k, _, rfl⟩ := List.mem_map.mp ha
    rfl
  have hnone : (List.replicate (L - tgt.length) (none : Option V)).filter
      (fun s => s.isSome) = [] := by
    apply List.filter_eq_nil.mpr
    intro a ha
    rw [List.eq_of_mem_replicate ha]
    simp
  rw [hall, hnone, List.append_nil]

theorem all_removed_of_length {frm tgt : List Nat}
    (h : (removedIdxs frm tgt).length = frm.length) : ∀ k ∈ frm, k ∉ tgt := by
  rw [removedIdxs, List.length_map] at h
  have hsub : (frm.filter (fun k => decide (k ∉ tgt))).Sublist frm := List.filter_sublist frm
  have heq := hsub.eq_of_length h
  intro k hk
  have hkf : k ∈ frm.filter (fun k => decide (k ∉ tgt)) := by rw [heq]; exact hk
  simpa using (List.mem_filter.mp hkf).2

theorem diff_clear_true_cond {frm tgt : List Nat} (htne : tgt ≠ [])
    (h : (diff (V := Nat) frm tgt).clear = true) :
    (removedIdxs frm tgt).length = frm.length ∧ moveCmds frm tgt = [] := by
  have htE : ¬ (tgt.isEmpty = true) := by simpa [List.isEmpty_iff] using htne
  rw [diff, if_neg (fun hc => htE hc.2), if_neg htE] at h
  split_ifs at h with h3
  · exact ⟨h3.2.2.1, List.isEmpty_iff.mp h3.2.2.2⟩
  · simp [diffRaw] at h


theorem apply_diff_eq_of_parts {V : Type} {d : Diff V} {c : List (Option V)}
    (hcl : d.clear = false)
    {c0' c1 c2 c3 c4 : List (Option V)} {staged : List (Nat × V)}
    (h0 : (if d.removed.length ≤ d.added.length then
        c ++ List.replicate (d.added.length - d.removed.length) none else c) = c0')
    (h1 : removeLoop d.removed c0' = some c1)
    (h2 : moveLoop d.moved c1 [] = some (c2, staged))
    (h3 : addLoop d.added c2 = some c3)
    (h4 : commitLoop staged c3 = some c4) :
    apply_diff d c = some (c4.filter (fun s => s.isSome)) := by
  rw [apply_diff]
  rw [hcl, h0]
  show (removeLoop d.removed c0').bind _ = _
  rw [h1, Option.some_bind, h2, Option.some_bind, h3, Option.some_bind, h4,
    Option.map_some']

theorem apply_diff_clear_eq_of_parts {V : Type} {d : Diff V} {c : List (Option V)}
    (hcl : d.clear = true)
    {c0' c2 c3 c4 : List (Option V)} {staged : List (Nat × V)}
    (h0 : (if d.removed.length ≤ d.added.length then
        c ++ List.replicate (d.added.length - d.removed.length) none else c) = c0')
    (h2 : moveLoop d.moved (clearAll c0') [] = some (c2, staged))
    (h3 : addLoop d.added c2 = some c3)
    (h4 : commitLoop staged c3 = some c4) :
    apply_diff d c = some (c4.filter (fun s => s.isSome)) := by
  rw [apply_diff]
  rw [hcl, h0]
  show (removeLoop [] (clearAll c0')).bind _ = _
  rw [removeLoop, Option.some_bind, h2, Option.some_bind, h3, Option.some_bind, h4,
    Option.map_some']

theorem resized_facts {frm : List Nat} {r a t : Nat} {c0' : List (Option Nat)}
    (hident : frm.length + a = t + r)
    (hc : c0' = if r ≤ a then
        frm.map some ++ List.replicate (a - r) (none : Option Nat) else frm.map some) :
    frm.length ≤ c0'.length ∧ t ≤ c0'.length ∧
    (∀ j k, frm.get? j = some k → c0'.get? j = some (some k)) ∧
    (∀ j, frm.length ≤ j → j < c0'.length → c0'.get? j = some none) := by
  subst hc
  by_cases hra : r ≤ a
  · rw [if_pos hra]
    have hlen : (frm.map some ++ List.replicate (a - r) (none : Option Nat)).length =
        frm.length + (a - r) := by
      simp
    refine ⟨by omega, by omega, ?_, ?_⟩
    · intro j k hjk
      have hj : j < frm.length := (List.get?_eq_some.mp hjk).choose
      rw [List.get?_append (by simpa using hj), List.get?_map, hjk]
      rfl
    · intro j hjf hjL
      rw [List.get?_append_right (by simpa using hjf)]
      have hlt : j - (frm.map some).length < a - r := by
        simp only [List.length_map]
        omega
      rw [List.get?_eq_get (by simpa using hlt), List.get_replicate]
  · rw [if_neg hra]
    refine ⟨by simp, by simp; omega, ?_, ?_⟩
    · intro j k hjk
      rw [List.get?_map, hjk]
      rfl
    · intro j hjf hjL
      rw [List.length_map] at hjL
      omega


theorem c4_filter {frm tgt : List Nat} (hf : frm.Nodup) (ht : tgt.Nodup)
    {c0' : List (Option Nat)}
    (hfl : frm.length ≤ c0'.length) (htl : tgt.length ≤ c0'.length)
    (hget0 : ∀ j k, frm.get? j = some k → c0'.get? j = some (some k))
    (hpad0 : ∀ j, frm.length ≤ j → j < c0'.length → c0'.get? j = some none) :
    (writeAll ((moveCmds frm tgt).map (fun p => (p.2, some ((frm.get? p.1).getD 0))))
      (writeAll ((addedIdxs frm tgt).map (fun i => (i, ((tgt.map some).get? i).getD none)))
        (writeAll ((moveCmds frm tgt).map (fun p => (p.1, none)))
          (writeAll ((removedIdxs frm tgt).map (fun i => (i, none))) c0')))).filter
      (fun s => s.isSome) = tgt.map some := by
  set remOps := (removedIdxs frm tgt).map (fun i => (i, (none : Option Nat))) with hremdef
  set extOps := (moveCmds frm tgt).map
    (fun p : Nat × Nat => (p.1, (none : Option Nat))) with hextdef
  set addOps := (addedIdxs frm tgt).map
    (fun i => (i, ((tgt.map some).get? i).getD none)) with hadddef
  set comOps := (moveCmds frm tgt).map
    (fun p : Nat × Nat => (p.2, some ((frm.get? p.1).getD 0))) with hcomdef
  have hremfst : remOps.map Prod.fst = removedIdxs frm tgt := by
    rw [hremdef, List.map_map,
      show (Prod.fst ∘ fun i : Nat => (i, (none : Option Nat))) = id from rfl, List.map_id]
  have hextfst : extOps.map Prod.fst = (moveCmds frm tgt).map Prod.fst := by
    rw [hextdef, List.map_map]
    rfl
  have haddfst : addOps.map Prod.fst = addedIdxs frm tgt := by
    rw [hadddef, List.map_map,
      show (Prod.fst ∘ fun i : Nat =>
        (i, ((tgt.map some).get? i).getD none)) = id from rfl, List.map_id]
  have hcomfst : comOps.map Prod.fst = (moveCmds frm tgt).map Prod.snd := by
    rw [hcomdef, List.map_map]
    rfl
  set c1 := writeAll remOps c0' with hc1def
  set c2 := writeAll extOps c1 with hc2def
  set c3 := writeAll addOps c2 with hc3def
  set c4 := writeAll comOps c3 with hc4def
  have hlen1 : c1.length = c0'.length := length_writeAll _ _
  have hlen2 : c2.length = c0'.length := by rw [hc2def, length_writeAll, hlen1]
  have hlen3 : c3.length = c0'.length := by rw [hc3def, length_writeAll, hlen2]
  have hlen4 : c4.length = c0'.length := by rw [hc4def, length_writeAll, hlen3]
  -- layer 1: after removals
  have hc1_surv : ∀ j k, frm.get? j = some k → k ∈ tgt → c1.get? j = some (some k) := by
    intro j k hj hkt
    have hnm : j ∉ removedIdxs frm tgt := by
      intro hmem
      obtain ⟨k', hk', hk'n⟩ := (mem_removedIdxs hf).mp hmem
      rw [hj] at hk'
      exact hk'n (Option.some.inj hk' ▸ hkt)
    rw [hc1def, get?_writeAll_of_not_mem (by rw [hremfst]; exact hnm)]
    exact hget0 j k hj
  have hc1_rm : ∀ j, j ∈ removedIdxs frm tgt → c1.get? j = some none := by
    intro j hmem
    rw [hc1def]
    exact get?_writeAll_of_mem (by rw [hremfst]; exact removedIdxs_nodup hf)
      (List.mem_map.mpr ⟨j, hmem, rfl⟩)
      (lt_of_lt_of_le (removedIdxs_lt hmem) hfl)
  have hc1_pad : ∀ j, frm.length ≤ j → j < c0'.length → c1.get? j = some none := by
    intro j hj1 hj2
    rw [hc1def, get?_writeAll_of_not_mem (by
      rw [hremfst]
      intro hmem
      exact absurd (removedIdxs_lt hmem) (not_lt.mpr hj1))]
    exact hpad0 j hj1 hj2
  -- layer 2: after move extraction
  have hc2_unmoved : ∀ j, j ∉ (moveCmds frm tgt).map Prod.fst → c2.get? j = c1.get? j := by
    intro j hj
    rw [hc2def]
    exact get?_writeAll_of_not_mem (by rw [hextfst]; exact hj)
  have hc2_moved : ∀ j, j ∈ (moveCmds frm tgt).map Prod.fst → c2.get? j = some none := by
    intro j hj
    obtain ⟨p, hp, rfl⟩ := List.mem_map.mp hj
    rw [hc2def]
    exact get?_writeAll_of_mem (by rw [hextfst]; exact moveCmds_fsts_nodup ht)
      (List.mem_map.mpr ⟨p, hp, rfl⟩)
      (by rw [hlen1]; exact lt_of_lt_of_le (moveCmds_fst_lt hp) hfl)
  -- layer 3: after adds
  have hc3_unadded : ∀ j, j ∉ addedIdxs frm tgt → c3.get? j = c2.get? j := by
    intro j hj
    rw [hc3def]
    exact get?_writeAll_of_not_mem (by rw [haddfst]; exact hj)
  have hc3_added : ∀ j, j ∈ addedIdxs frm tgt →
      c3.get? j = some (((tgt.map some).get? j).getD none) := by
    intro j hj
    rw [hc3def]
    exact get?_writeAll_of_mem (by rw [haddfst]; exact addedIdxs_nodup ht)
      (List.mem_map.mpr ⟨j, hj, rfl⟩)
      (by rw [hlen2]; exact lt_of_lt_of_le (addedIdxs_lt hj) htl)
  -- layer 4: after move commits
  have hc4_uncommitted : ∀ j, j ∉ (moveCmds frm tgt).map Prod.snd →
      c4.get? j = c3.get? j := by
    intro j hj
    rw [hc4def]
    exact get?_writeAll_of_not_mem (by rw [hcomfst]; exact hj)
  have hc4_committed : ∀ p, p ∈ moveCmds frm tgt →
      c4.get? p.2 = some (some ((frm.get? p.1).getD 0)) := by
    intro p hp
    rw [hc4def]
    exact get?_writeAll_of_mem (by rw [hcomfst]; exact moveCmds_snds_nodup frm tgt)
      (List.mem_map.mpr ⟨p, hp, rfl⟩)
      (by rw [hlen3]; exact lt_of_lt_of_le (moveCmds_snd_lt hp) htl)
  -- membership helpers
  have hnot_snd : ∀ i k, tgt.get? i = some k →
      (k ∉ frm ∨ (frm.indexOf k, i) ∉ moveCmds frm tgt) →
      i ∉ (moveCmds frm tgt).map Prod.snd := by
    intro i k hget hdis hj
    obtain ⟨p, hp, hpi⟩ := List.mem_map.mp hj
    obtain ⟨k', hg', hk'f, hfr'⟩ := moveCmds_mem (show (p.1, p.2) ∈ _ from hp)
    rw [hpi] at hg'
    have hkk : k' = k := Option.some.inj (hg'.symm.trans hget)
    subst hkk
    rcases hdis with hd | hd
    · exact hd hk'f
    · apply hd
      have hpe : p = (frm.indexOf k', i) := Prod.ext hfr' hpi
      rw [← hpe]
      exact hp
  -- final pointwise description
  have hfin1 : ∀ i k, tgt.get? i = some k → c4.get? i = some (some k) := by
    intro i k hget
    by_cases hkf : k ∈ frm
    · by_cases hm : (frm.indexOf k, i) ∈ moveCmds frm tgt
      · have := hc4_committed (frm.indexOf k, i) hm
        have hfrm : frm.get? (frm.indexOf k) = some k := List.indexOf_get? hkf
        rw [hfrm] at this
        exact this
      · -- no move emitted: the key sits at its own index
        have hfr_eq : frm.indexOf k = i := by
          by_contra hne
          exact hm (moveCmds_push hget hkf hne)
        have h4 : c4.get? i = c3.get? i :=
          hc4_uncommitted i (hnot_snd i k hget (Or.inr hm))
        have h3 : c3.get? i = c2.get? i := by
          apply hc3_unadded
          intro hmem
          obtain ⟨k', hk', hk'n⟩ := (mem_addedIdxs ht).mp hmem
          rw [hget] at hk'
          exact hk'n (Option.some.inj hk' ▸ hkf)
        have h2 : c2.get? i = c1.get? i := by
          apply hc2_unmoved
          intro hmem
          obtain ⟨p, hp, hpi⟩ := List.mem_map.mp hmem
          obtain ⟨k'', hg'', hk''f, hfr''⟩ := moveCmds_mem (show (p.1, p.2) ∈ _ from hp)
          -- p.1 = i = frm.indexOf k, and p.1 = frm.indexOf k'' forces k'' = k
          have hkk : k'' = k := by
            have hik : frm.indexOf k'' = frm.indexOf k := by
              rw [← hfr'', hpi, hfr_eq]
            exact (List.indexOf_inj hk''f hkf).mp hik
          subst hkk
          have hsnd : p.2 = i := nodup_get?_inj ht hg'' hget
          have hpe : p = (frm.indexOf k'', i) := Prod.ext hfr'' hsnd
          exact hm (hpe ▸ hp)
        have hfrm : frm.get? i = some k := by
          rw [← hfr_eq]
          exact List.indexOf_get? hkf
        rw [h4, h3, h2]
        exact hc1_surv i k hfrm (List.get?_mem hget)
    · -- added key
      have hmem : i ∈ addedIdxs frm tgt := (mem_addedIdxs ht).mpr ⟨k, hget, hkf⟩
      have h4 : c4.get? i = c3.get? i :=
        hc4_uncommitted i (hnot_snd i k hget (Or.inl hkf))
      rw [h4, hc3_added i hmem, List.get?_map, hget]
      rfl
  have hfin2 : ∀ i, tgt.length ≤ i → i < c0'.length → c4.get? i = some none := by
    intro i hit hiL
    have h4 : c4.get? i = c3.get? i := by
      apply hc4_uncommitted
      intro hj
      obtain ⟨p, hp, hpi⟩ := List.mem_map.mp hj
      have := moveCmds_snd_lt hp
      omega
    have h3 : c3.get? i = c2.get? i := by
      apply hc3_unadded
      intro hmem
      have := addedIdxs_lt hmem
      omega
    rw [h4, h3]
    by_cases hif : i < frm.length
    · -- a slot of `from` past the end of `to`: removed or extracted
      have hsome : frm.get? i = some (frm.get ⟨i, hif⟩) := List.get?_eq_get hif
      by_cases hkt : frm.get ⟨i, hif⟩ ∈ tgt
      · -- surviving key: its target index is < t ≤ i, so a move was emitted from i
        have hidx : frm.indexOf (frm.get ⟨i, hif⟩) = i := List.get_indexOf hf ⟨i, hif⟩
        have hjt : tgt.indexOf (frm.get ⟨i, hif⟩) < tgt.length :=
          List.indexOf_lt_length.mpr hkt
        have hgt : tgt.get? (tgt.indexOf (frm.get ⟨i, hif⟩)) =
            some (frm.get ⟨i, hif⟩) := List.indexOf_get? hkt
        have hne : frm.indexOf (frm.get ⟨i, hif⟩) ≠ tgt.indexOf (frm.get ⟨i, hif⟩) := by
          omega
        have hpush := moveCmds_push hgt (List.get_mem frm i hif) hne
        apply hc2_moved
        refine List.mem_map.mpr ⟨(frm.indexOf (frm.get ⟨i, hif⟩),
          tgt.indexOf (frm.get ⟨i, hif⟩)), hpush, ?_⟩
        exact hidx
      · -- removed key; its slot is never a move source
        have hrm : i ∈ removedIdxs frm tgt := (mem_removedIdxs hf).mpr ⟨_, hsome, hkt⟩
        have h2 : c2.get? i = c1.get? i := by
          apply hc2_unmoved
          intro hmem
          obtain ⟨p, hp, hpi⟩ := List.mem_map.mp hmem
          obtain ⟨k'', hg'', hk''f, hfr''⟩ := moveCmds_mem (show (p.1, p.2) ∈ _ from hp)
          have hfrm'' : frm.get? (frm.indexOf k'') = some k'' := List.indexOf_get? hk''f
          rw [hfr''] at hpi
          rw [hpi] at hfrm''
          have : k'' = frm.get ⟨i, hif⟩ := by
            rw [hsome] at hfrm''
            exact (Option.some.inj hfrm'').symm
          subst this
          exact hkt (List.get?_mem hg'')
        rw [h2]
        exact hc1_rm i hrm
    · -- padding
      have h2 : c2.get? i = c1.get? i := by
        apply hc2_unmoved
        intro hmem
        obtain ⟨p, hp, hpi⟩ := List.mem_map.mp hmem
        have := moveCmds_fst_lt hp
        omega
      rw [h2]
      exact hc1_pad i (le_of_not_lt hif) hiL
  exact filter_isSome_final c4 tgt c0'.length hlen4 htl hfin1 hfin2


theorem reconcile_eq_of_fill {frm tgt : List Nat} {ops : List (Nat × Option Nat)}
    (hfill : fillAdds (diff (V := Nat) frm tgt).added (tgt.map some) = some ops) :
    reconcile frm tgt =
      apply_diff { diff (V := Nat) frm tgt with added := ops } (frm.map some) := by
  simp only [reconcile]
  rw [hfill, Option.some_bind]

theorem map_fst_pair {β : Type} (l : List Nat) (g : Nat → β) :
    (l.map (fun i => (i, g i))).map Prod.fst = l := by
  rw [List.map_map, show (Prod.fst ∘ fun i : Nat => (i, g i)) = id from rfl, List.map_id]

theorem c1_surv_slot {frm tgt : List Nat} (hf : frm.Nodup) {c0' : List (Option Nat)}
    (hget0 : ∀ j k, frm.get? j = some k → c0'.get? j = some (some k)) :
    ∀ p ∈ moveCmds frm tgt,
      (writeAll ((removedIdxs frm tgt).map (fun i => (i, none))) c0').get? p.1 =
        some (some ((frm.get? p.1).getD 0)) := by
  intro p hp
  obtain ⟨k, hgk, hkf, hfr⟩ := moveCmds_mem (show (p.1, p.2) ∈ _ from hp)
  have hfrm : frm.get? p.1 = some k := by
    rw [hfr]
    exact List.indexOf_get? hkf
  have hkt : k ∈ tgt := List.get?_mem hgk
  have hnm : p.1 ∉ removedIdxs frm tgt := by
    intro hmem
    obtain ⟨k', hk', hk'n⟩ := (mem_removedIdxs hf).mp hmem
    rw [hfrm] at hk'
    exact hk'n (Option.some.inj hk' ▸ hkt)
  rw [get?_writeAll_of_not_mem (by rw [map_fst_pair]; exact hnm), hget0 p.1 k hfrm, hfrm]
  rfl

theorem reconcile_of_clear_false {frm tgt : List Nat} (hf : frm.Nodup) (ht : tgt.Nodup)
    (htne : tgt ≠ []) (hcl : (diff (V := Nat) frm tgt).clear = false) :
    reconcile frm tgt = some (tgt.map some) := by
  have hfillv := fillAdds_eq ((addedIdxs frm tgt).map (fun i => (i, (none : Option Nat))))
    (tgt.map some)
    (by rw [map_fst_pair]; exact addedIdxs_nodup ht)
    (by
      intro p hp
      obtain ⟨i, hi, rfl⟩ := List.mem_map.mp hp
      have hlt := addedIdxs_lt hi
      exact ⟨tgt.get ⟨i, hlt⟩, by rw [List.get?_map, List.get?_eq_get hlt]; rfl⟩)
  have hmapmap : (((addedIdxs frm tgt).map (fun i => (i, (none : Option Nat)))).map
      (fun p => (p.1, ((tgt.map some).get? p.1).getD none))) =
      (addedIdxs frm tgt).map (fun i => (i, ((tgt.map some).get? i).getD none)) := by
    rw [List.map_map]
    exact List.map_congr_left (fun i _ => rfl)
  have hfill2 : fillAdds (diff (V := Nat) frm tgt).added (tgt.map some) =
      some ((addedIdxs frm tgt).map (fun i => (i, ((tgt.map some).get? i).getD none))) := by
    rw [diff_added_eq Nat frm tgt htne, hfillv, hmapmap]
  rw [reconcile_eq_of_fill hfill2]
  set A := (addedIdxs frm tgt).map (fun i => (i, ((tgt.map some).get? i).getD none)) with hA
  have hDeq : ({ diff (V := Nat) frm tgt with added := A } : Diff Nat) =
      ⟨removedIdxs frm tgt, moveCmds frm tgt, A, false⟩ := by
    rw [← diff_removed_eq Nat frm tgt htne, ← diff_moved_eq Nat frm tgt htne, ← hcl]
  rw [hDeq]
  set C0 : List (Option Nat) :=
    if (removedIdxs frm tgt).length ≤ A.length then
      frm.map some ++ List.replicate (A.length - (removedIdxs frm tgt).length) none
    else frm.map some with hC0
  have hident : frm.length + A.length = tgt.length + (removedIdxs frm tgt).length := by
    rw [hA, List.length_map]
    exact length_count_identity hf ht
  obtain ⟨hfl, htl, hget0, hpad0⟩ := resized_facts hident hC0
  have h1 : removeLoop (removedIdxs frm tgt) C0 =
      some (writeAll ((removedIdxs frm tgt).map (fun i => (i, none))) C0) :=
    removeLoop_eq _ _ (fun i hi => lt_of_lt_of_le (removedIdxs_lt hi) hfl)
  have h2 : moveLoop (moveCmds frm tgt)
      (writeAll ((removedIdxs frm tgt).map (fun i => (i, none))) C0) [] =
      some (writeAll ((moveCmds frm tgt).map (fun p => (p.1, none)))
          (writeAll ((removedIdxs frm tgt).map (fun i => (i, none))) C0),
        [] ++ (moveCmds frm tgt).map (fun p => (p.2, (frm.get? p.1).getD 0))) :=
    moveLoop_eq _ _ _ (fun j => (frm.get? j).getD 0) (moveCmds_fsts_nodup ht)
      (c1_surv_slot hf hget0)
  have h3 : addLoop A
      (writeAll ((moveCmds frm tgt).map (fun p => (p.1, none)))
        (writeAll ((removedIdxs frm tgt).map (fun i => (i, none))) C0)) =
      some (writeAll A
        (writeAll ((moveCmds frm tgt).map (fun p => (p.1, none)))
          (writeAll ((removedIdxs frm tgt).map (fun i => (i, none))) C0))) := by
    apply addLoop_eq
    intro p hp
    rw [length_writeAll, length_writeAll]
    obtain ⟨i, hi, rfl⟩ := List.mem_map.mp (hA ▸ hp)
    exact lt_of_lt_of_le (addedIdxs_lt hi) htl
  have h4 : commitLoop
      ([] ++ (moveCmds frm tgt).map (fun p => (p.2, (frm.get? p.1).getD 0)))
      (writeAll A
        (writeAll ((moveCmds frm tgt).map (fun p => (p.1, none)))
          (writeAll ((removedIdxs frm tgt).map (fun i => (i, none))) C0))) =
      some (writeAll ((moveCmds frm tgt).map (fun p => (p.2, some ((frm.get? p.1).getD 0))))
        (writeAll A
          (writeAll ((moveCmds frm tgt).map (fun p => (p.1, none)))
            (writeAll ((removedIdxs frm tgt).map (fun i => (i, none))) C0)))) := by
    have hb : ∀ q ∈ (moveCmds frm tgt).map (fun p => (p.2, (frm.get? p.1).getD 0)),
        q.1 < (writeAll A
          (writeAll ((moveCmds frm tgt).map (fun p => (p.1, none)))
            (writeAll ((removedIdxs frm tgt).map (fun i => (i, none))) C0))).length := by
      intro q hq
      rw [length_writeAll, length_writeAll, length_writeAll]
      obtain ⟨p, hp, rfl⟩ := List.mem_map.mp hq
      exact lt_of_lt_of_le (moveCmds_snd_lt hp) htl
    have := commitLoop_eq ((moveCmds frm tgt).map (fun p => (p.2, (frm.get? p.1).getD 0)))
      (writeAll A
        (writeAll ((moveCmds frm tgt).map (fun p => (p.1, none)))
          (writeAll ((removedIdxs frm tgt).map (fun i => (i, none))) C0))) hb
    rw [List.nil_append, this, List.map_map]
    exact congrArg some (congrArg (fun ops => writeAll ops _)
      (List.map_congr_left (fun p _ => rfl)))
  rw [apply_diff_eq_of_parts rfl hC0.symm h1 h2 h3 h4]
  exact congrArg some (c4_filter hf ht hfl htl hget0 hpad0)


theorem reconcile_of_clear_true {frm tgt : List Nat} (hf : frm.Nodup) (ht : tgt.Nodup)
    (htne : tgt ≠ []) (hcl : (diff (V := Nat) frm tgt).clear = true) :
    reconcile frm tgt = some (tgt.map some) := by
  obtain ⟨hrlen, hms⟩ := diff_clear_true_cond htne hcl
  have hdisj := all_removed_of_length hrlen
  have hdisj' : ∀ k ∈ tgt, k ∉ frm := fun k hk hkf => hdisj k hkf hk
  have hfillv := fillAdds_eq ((addedIdxs frm tgt).map (fun i => (i, (none : Option Nat))))
    (tgt.map some)
    (by rw [map_fst_pair]; exact addedIdxs_nodup ht)
    (by
      intro p hp
      obtain ⟨i, hi, rfl⟩ := List.mem_map.mp hp
      have hlt := addedIdxs_lt hi
      exact ⟨tgt.get ⟨i, hlt⟩, by rw [List.get?_map, List.get?_eq_get hlt]; rfl⟩)
  have hmapmap : (((addedIdxs frm tgt).map (fun i => (i, (none : Option Nat)))).map
      (fun p => (p.1, ((tgt.map some).get? p.1).getD none))) =
      (addedIdxs frm tgt).map (fun i => (i, ((tgt.map some).get? i).getD none)) := by
    rw [List.map_map]
    exact List.map_congr_left (fun i _ => rfl)
  have hfill2 : fillAdds (diff (V := Nat) frm tgt).added (tgt.map some) =
      some ((addedIdxs frm tgt).map (fun i => (i, ((tgt.map some).get? i).getD none))) := by
    rw [diff_added_eq Nat frm tgt htne, hfillv, hmapmap]
  rw [reconcile_eq_of_fill hfill2]
  set A := (addedIdxs frm tgt).map (fun i => (i, ((tgt.map some).get? i).getD none)) with hA
  have hDeq : ({ diff (V := Nat) frm tgt with added := A } : Diff Nat) =
      ⟨removedIdxs frm tgt, moveCmds frm tgt, A, true⟩ := by
    rw [← diff_removed_eq Nat frm tgt htne, ← diff_moved_eq Nat frm tgt htne, ← hcl]
  rw [hDeq]
  set C0 : List (Option Nat) :=
    if (removedIdxs frm tgt).length ≤ A.length then
      frm.map some ++ List.replicate (A.length - (removedIdxs frm tgt).length) none
    else frm.map some with hC0
  have hident : frm.length + A.length = tgt.length + (removedIdxs frm tgt).length := by
    rw [hA, List.length_map]
    exact length_count_identity hf ht
  obtain ⟨hfl, htl, hget0, hpad0⟩ := resized_facts hident hC0
  have h2 : moveLoop (moveCmds frm tgt) (clearAll C0) [] = some (clearAll C0, []) := by
    rw [hms]
    rfl
  have h3 : addLoop A (clearAll C0) = some (writeAll A (clearAll C0)) := by
    apply addLoop_eq
    intro p hp
    rw [length_clearAll]
    obtain ⟨i, hi, rfl⟩ := List.mem_map.mp (hA ▸ hp)
    exact lt_of_lt_of_le (addedIdxs_lt hi) htl
  have h4 : commitLoop ([] : List (Nat × Nat)) (writeAll A (clearAll C0)) =
      some (writeAll A (clearAll C0)) := rfl
  rw [apply_diff_clear_eq_of_parts rfl hC0.symm h2 h3 h4]
  apply congrArg some
  apply filter_isSome_final _ tgt C0.length
    (by rw [length_writeAll, length_clearAll]) htl
  · intro i k hget
    have hmem : i ∈ addedIdxs frm tgt :=
      (mem_addedIdxs ht).mpr ⟨k, hget, hdisj' k (List.get?_mem hget)⟩
    have hval : (writeAll A (clearAll C0)).get? i =
        some (((tgt.map some).get? i).getD none) := by
      apply get?_writeAll_of_mem
      · rw [hA, map_fst_pair]
        exact addedIdxs_nodup ht
      · rw [hA]
        exact List.mem_map.mpr ⟨i, hmem, rfl⟩
      · rw [length_clearAll]
        exact lt_of_lt_of_le (addedIdxs_lt hmem) htl
    rw [hval, List.get?_map, hget]
    rfl
  · intro i hit hiL
    have hnm : i ∉ A.map Prod.fst := by
      rw [hA, map_fst_pair]
      intro hmem
      exact absurd (addedIdxs_lt hmem) (not_lt.mpr hit)
    rw [get?_writeAll_of_not_mem hnm]
    exact get?_clearAll C0 i hiL

/-- C1: for every pair of duplicate-free key sets `frm` and `tgt`, running
`diff(frm, tgt)`, filling the added entries with the items of `tgt`, and
applying the script via `apply_diff` to a slot array holding the distinct
markers of `frm` in order yields, after compaction, exactly the dense array
of markers of `tgt` in order (and no step panics). -/
theorem C1_roundtrip (frm tgt : List Nat) (hf : frm.Nodup) (ht : tgt.Nodup) :
    reconcile frm tgt = some (tgt.map some) := by
  by_cases htne : tgt = []
  · subst htne
    by_cases hfe : frm = []
    · subst hfe
      rfl
    · have hd : diff (V := Nat) frm [] =
          { removed := [], moved := [], added := [], clear := true } := by
        rw [diff, if_neg (fun hc => hfe (List.isEmpty_iff.mp hc.1)),
          if_pos (show ([] : List Nat).isEmpty = true from rfl)]
        rfl
      have hfill0 : fillAdds (diff (V := Nat) frm []).added
          (([] : List Nat).map some) = some [] := by
        rw [hd]
        rfl
      rw [reconcile_eq_of_fill hfill0]
      have hDeq : ({ diff (V := Nat) frm [] with
          added := ([] : List (Nat × Option Nat)) } : Diff Nat) =
          ⟨[], [], [], true⟩ := by
        rw [hd]
      rw [hDeq]
      have h0 : (if ([] : List Nat).length ≤ ([] : List (Nat × Option Nat)).length then
          frm.map some ++ List.replicate
            (([] : List (Nat × Option Nat)).length - ([] : List Nat).length) none
        else frm.map some) = frm.map some := by
        simp
      have h2 : moveLoop ([] : List (Nat × Nat)) (clearAll (frm.map some)) [] =
          some (clearAll (frm.map some), []) := rfl
      have h3 : addLoop ([] : List (Nat × Option Nat)) (clearAll (frm.map some)) =
          some (clearAll (frm.map some)) := rfl
      have h4 : commitLoop ([] : List (Nat × Nat)) (clearAll (frm.map some)) =
          some (clearAll (frm.map some)) := rfl
      rw [apply_diff_clear_eq_of_parts rfl h0 h2 h3 h4]
      apply congrArg some
      apply filter_isSome_final _ [] (frm.map some).length (length_clearAll _) (by simp)
      · intro i k hget
        cases hget
      · intro i _ hiL
        exact get?_clearAll _ i hiL
  · by_cases hcl : (diff (V := Nat) frm tgt).clear = true
    · exact reconcile_of_clear_true hf ht htne hcl
    · exact reconcile_of_clear_false hf ht htne (by simpa using hcl)

/-- C1 witness: a concrete reconciliation mixing removal, reorder and
insertion — `[0,1,2,3] -> [4,2,1]` — lands exactly on the target order. -/
theorem C1_witness :
    ([0, 1, 2, 3] : List Nat).Nodup ∧ ([4, 2, 1] : List Nat).Nodup ∧
    reconcile [0, 1, 2, 3] [4, 2, 1] = some [some 4, some 2, some 1] := by
  refine ⟨by decide, by decide, ?_⟩
  have h := C1_roundtrip [0, 1, 2, 3] [4, 2, 1] (by decide) (by decide)
  simpa using h

end Floem
